import Mathlib

/-!
Verification of the `double-link` lock-free FIFO queue (the EBR variant in
`src/ebr.rs` and the HP variant in `src/hp.rs`), as a sequential shallow
embedding.

Modelling conventions:
* The heap is a `List (Node α)`; a pointer is the index of a node in that
  list, and the null pointer is `Option.none`.  Allocation appends a node at
  the end of the list, so a fresh allocation has address `heap.length`.
* Every pointer dereference is a `heap[a]?` lookup in the `Option` monad;
  a failed lookup (dangling or null dereference, which is undefined
  behaviour in the source) and a panicking `unwrap` both surface as `none`.
* Execution is single-threaded, as in the sequential claims: a
  `compare_exchange` is modelled by an equality test against the previously
  loaded value followed by the store; in a single-threaded run the test is
  against an unchanged cell.  The surrounding retry loop never re-runs
  because the test never fails; a (sequentially unreachable) failed test is
  mapped to `none`.
* `defer_destroy` / `retire_ptr` append the retired address to a ghost
  `retired` list; an immediate free (`drop(into_owned())`) appends to a
  ghost `freed` list.  Memory-ordering annotations have no sequential
  content and are dropped.
* The EBR enqueue additionally returns the ghost trace of the stores it
  performed to `next` fields, as `(address, stored value)` pairs in program
  order, so that single-assignment claims about `next` can be stated.
-/

namespace DoubleLink

/-- A list cell of the queue: `item` is the optional payload (`None` for the
sentinel), `prev` and `next` are nullable links, from `struct Node<T>` in
`src/ebr.rs` and `src/hp.rs` (the fields have the same sequential content in
both variants). -/
structure Node (α : Type) where
  item : Option α
  prev : Option Nat
  next : Option Nat
  deriving DecidableEq

/-- Model of `Node::sentinel()`: no payload, null links. -/
def Node.sentinel (α : Type) : Node α :=
  { item := none, prev := none, next := none }

/-- Model of `Node::new(item)`: payload `item`, null links. -/
def Node.mkNode (x : α) : Node α :=
  { item := some x, prev := none, next := none }

/-- The state of a `DoubleLink<T>` queue together with the heap it lives in:
`head` and `tail` are the two atomic pointers of the queue, `retired` is the
ghost list of addresses handed to the reclamation service, `freed` the ghost
list of addresses destroyed directly. -/
structure QState (α : Type) where
  heap : List (Node α)
  head : Nat
  tail : Nat
  retired : List Nat
  freed : List Nat
  deriving DecidableEq

/-- Store to the node at address `a` (dereference-and-update); fails on a
dangling address. -/
def updNode (s : QState α) (a : Nat) (f : Node α → Node α) : Option (QState α) :=
  (s.heap[a]?).map fun nd => { s with heap := s.heap.set a (f nd) }

@[simp] theorem updNode_tail (s : QState α) (a : Nat) (f : Node α → Node α) :
    (updNode s a f).map QState.tail = (s.heap[a]?).map fun _ => s.tail := by
  cases h : s.heap[a]? <;> simp [updNode, h]

namespace Ebr

/-- Model of `DoubleLink::new()` (EBR): allocate the sentinel, store its `prev` as a
self-reference, and let `head` and `tail` point at it. -/
def new (α : Type) : QState α :=
  { heap := [{ Node.sentinel α with prev := some 0 }]
    head := 0
    tail := 0
    retired := []
    freed := [] }

/-- Model of `DoubleLink::enqueue` (EBR), sequential semantics, instrumented with the
ghost trace of stores to `next` fields.  Mirrors the source: allocate the
node; load `tail` into `ltail`; dereference `ltail.prev` into `lprev`; store
the node's `prev := ltail`; help the previous enqueue (`if lprev.next is
null then lprev.next := ltail`); CAS `tail` from `ltail` to the node; on
success store `ltail.next := node`. -/
def enqueue (s : QState α) (x : α) : Option (QState α × List (Nat × Option Nat)) := do
  let n := s.heap.length
  let s0 : QState α := { s with heap := s.heap ++ [Node.mkNode x] }
  let ltail := s0.tail
  let tnode ← s0.heap[ltail]?
  let lprevA ← tnode.prev
  let _ ← s0.heap[lprevA]?
  let s1 ← updNode s0 n fun nd => { nd with prev := some ltail }
  let lprevCur ← s1.heap[lprevA]?
  let (s2, w1) ←
    if lprevCur.next = none then
      (updNode s1 lprevA fun nd => { nd with next := some ltail }).map
        fun s' => (s', [(lprevA, some ltail)])
    else
      pure (s1, [])
  if s2.tail = ltail then
    let s3 : QState α := { s2 with tail := n }
    let s4 ← updNode s3 ltail fun nd => { nd with next := some n }
    pure (s4, w1 ++ [(ltail, some n)])
  else
    none

/-- The state part of the EBR enqueue, the ghost store trace dropped. -/
def enqueueSt (s : QState α) (x : α) : Option (QState α) :=
  (enqueue s x).map Prod.fst

/-- Model of `DoubleLink::dequeue` (EBR), sequential semantics.  Mirrors the source:
load `head` into `lhead`; load `lhead.next` into `lnext`; if `lnext` is null
return `None`; CAS `head` from `lhead` to `lnext`; on success unwrap the
payload of `lnext`, defer-destroy `lhead`, and return the payload. -/
def dequeue (s : QState α) : Option (Option α × QState α) := do
  let lhead := s.head
  let hnode ← s.heap[lhead]?
  match hnode.next with
  | none => pure (none, s)
  | some lnext =>
    if s.head = lhead then
      let s1 : QState α := { s with head := lnext }
      let nnode ← s.heap[lnext]?
      let item ← nnode.item
      pure (some item, { s1 with retired := s1.retired ++ [lhead] })
    else
      none

/-- The drain loop of `Drop for DoubleLink` (EBR): dequeue while it returns
`Some`.  The source loop is unbounded; here it carries fuel, and exhausting
the fuel (a run that never reaches the empty state) is mapped to `none`. -/
def drain (fuel : Nat) (s : QState α) : Option (QState α) :=
  match fuel with
  | 0 => none
  | fuel + 1 =>
    match dequeue s with
    | none => none
    | some (none, s') => some s'
    | some (some _, s') => drain fuel s'

/-- Model of `Drop for DoubleLink` (EBR): drain the queue by repeated dequeue, then
free the node `head` points at (the final sentinel) directly. -/
def drop (s : QState α) : Option (QState α) := do
  let s1 ← drain (s.heap.length + 1) s
  pure { s1 with freed := s1.freed ++ [s1.head] }

/-- Run a list of enqueues left to right. -/
def runEnqs (s : QState α) : List α → Option (QState α)
  | [] => some s
  | x :: xs => (enqueueSt s x).bind fun s' => runEnqs s' xs

/-- Run `k` dequeues, collecting the returned values. -/
def runDeqs (s : QState α) : Nat → Option (List (Option α) × QState α)
  | 0 => some ([], s)
  | k + 1 => do
    let (r, s') ← dequeue s
    let (rs, s'') ← runDeqs s' k
    pure (r :: rs, s'')

end Ebr

/-- A trace of stores is single-valued when any two stores to the same
address store the identical value. -/
def writesConsistent (ws : List (Nat × Option Nat)) : Prop :=
  ∀ p ∈ ws, ∀ q ∈ ws, p.1 = q.1 → p.2 = q.2

instance (ws : List (Nat × Option Nat)) : Decidable (writesConsistent ws) := by
  unfold writesConsistent; infer_instance

namespace Hp

/-- Model of `Holder`: the two hazard-pointer slots of a thread, `pri` protecting the
node entered from `head`/`tail` and `sub` the node reached from it.  A slot
holds the protected address or `none` after `reset_protection`. -/
structure Holder where
  pri : Option Nat
  sub : Option Nat
  deriving DecidableEq

/-- Model of `Holder::new()`: both slots empty. -/
def Holder.new : Holder := ⟨none, none⟩

/-- Model of `DoubleLink::new()` (HP): identical sequential content to the EBR
constructor — sentinel with self-referencing `prev`, `head = tail` =
sentinel. -/
def new (α : Type) : QState α :=
  { heap := [{ Node.sentinel α with prev := some 0 }]
    head := 0
    tail := 0
    retired := []
    freed := [] }

/-- Model of `DoubleLink::enqueue` (HP), sequential semantics.  `protect_link` loads
`tail` and publishes it in the `pri` slot (the validating re-read succeeds
at once in a single-threaded run); the raw `prev` field is published in the
`sub` slot; after the fence the `tail` re-read is compared against `ltail`;
then `lprev` is dereferenced and the algorithm proceeds as in the EBR
variant; after a successful CAS both slots are reset. -/
def enqueue (s : QState α) (x : α) (h : Holder) : Option (QState α × Holder) := do
  let n := s.heap.length
  let s0 : QState α := { s with heap := s.heap ++ [Node.mkNode x] }
  let ltail := s0.tail
  let h0 : Holder := { h with pri := some ltail }
  let tnode ← s0.heap[ltail]?
  let lprevA := tnode.prev
  let h1 : Holder := { h0 with sub := lprevA }
  if s0.tail = ltail then
    let lprevAddr ← lprevA
    let _ ← s0.heap[lprevAddr]?
    let s1 ← updNode s0 n fun nd => { nd with prev := some ltail }
    let lprevCur ← s1.heap[lprevAddr]?
    let s2 ←
      if lprevCur.next = none then
        updNode s1 lprevAddr fun nd => { nd with next := some ltail }
      else
        pure s1
    if s2.tail = ltail then
      let s3 : QState α := { s2 with tail := n }
      let s4 ← updNode s3 ltail fun nd => { nd with next := some n }
      pure (s4, ({ h1 with pri := none, sub := none } : Holder))
    else
      none
  else
    none

/-- Model of `DoubleLink::dequeue` (HP), sequential semantics.  `protect_link` loads
`head` into the `pri` slot; `lhead.next` is loaded; on null the `pri` slot
is reset and `None` returned (the `sub` slot is not touched); otherwise
`lnext` is published in the `sub` slot, the post-fence `head` re-read is
compared against `lhead`, the CAS is attempted, and on success the payload
of `lnext` is unwrapped, `lhead` is retired to the global domain, and only
the `pri` slot is reset before returning. -/
def dequeue (s : QState α) (h : Holder) : Option (Option α × QState α × Holder) := do
  let lhead := s.head
  let h0 : Holder := { h with pri := some lhead }
  let hnode ← s.heap[lhead]?
  match hnode.next with
  | none => pure (none, s, ({ h0 with pri := none } : Holder))
  | some lnext =>
    let h1 : Holder := { h0 with sub := some lnext }
    if s.head = lhead then
      if s.head = lhead then
        let s1 : QState α := { s with head := lnext }
        let nnode ← s.heap[lnext]?
        let item ← nnode.item
        pure (some item, { s1 with retired := s1.retired ++ [lhead] },
          ({ h1 with pri := none } : Holder))
      else
        none
    else
      none

/-- Model of `Drop for DoubleLink` (HP): the body of the destructor is empty — it
performs no dequeue and frees nothing. -/
def drop (s : QState α) : QState α := s

/-- Run a list of HP enqueues left to right, threading the holder. -/
def runEnqs (s : QState α) (h : Holder) : List α → Option (QState α × Holder)
  | [] => some (s, h)
  | x :: xs => (enqueue s x h).bind fun p => runEnqs p.1 p.2 xs

/-- Run `k` HP dequeues, threading the holder and collecting the results. -/
def runDeqs (s : QState α) (h : Holder) : Nat → Option (List (Option α) × QState α × Holder)
  | 0 => some ([], s, h)
  | k + 1 => do
    let (r, s', h') ← dequeue s h
    let (rs, s'', h'') ← runDeqs s' h' k
    pure (r :: rs, s'', h'')

end Hp

end DoubleLink

namespace DoubleLink

variable {α : Type}

/-- Reachability predicate `Chain heap a l t`: starting at address `a`, following `next` links
visits nodes with payloads `l` (the node at `a` itself excluded) and ends at
the null-`next` node at address `t`.  Addresses are strictly increasing
along the chain, as nodes are allocated in address order. -/
inductive Chain (heap : List (Node α)) : Nat → List α → Nat → Prop
  | nil {a : Nat} (nd : Node α) (ha : heap[a]? = some nd) (hn : nd.next = none) :
      Chain heap a [] a
  | cons {a b t : Nat} {x : α} {l : List α} (nd ndb : Node α)
      (ha : heap[a]? = some nd) (hn : nd.next = some b) (hab : a < b)
      (hb : heap[b]? = some ndb) (hitem : ndb.item = some x)
      (hc : Chain heap b l t) :
      Chain heap a (x :: l) t

theorem Chain.start_lt {heap : List (Node α)} {a t : Nat} {l : List α}
    (h : Chain heap a l t) : a < heap.length := by
  cases h with
  | nil nd ha _ => exact (List.getElem?_eq_some.mp ha).1
  | cons nd ndb ha _ _ _ _ _ => exact (List.getElem?_eq_some.mp ha).1

theorem Chain.last_lt {heap : List (Node α)} {a t : Nat} {l : List α}
    (h : Chain heap a l t) : t < heap.length := by
  induction h with
  | nil nd ha _ => exact (List.getElem?_eq_some.mp ha).1
  | cons _ _ _ _ _ _ _ _ ih => exact ih

theorem Chain.start_le {heap : List (Node α)} {a t : Nat} {l : List α}
    (h : Chain heap a l t) : a ≤ t := by
  induction h with
  | nil => exact le_refl _
  | cons _ _ _ _ hab _ _ _ ih => exact le_of_lt (lt_of_lt_of_le hab ih)

theorem Chain.last_next {heap : List (Node α)} {a t : Nat} {l : List α}
    (h : Chain heap a l t) : ∃ nd, heap[t]? = some nd ∧ nd.next = none := by
  induction h with
  | nil nd ha hn => exact ⟨nd, ha, hn⟩
  | cons _ _ _ _ _ _ _ _ ih => exact ih

theorem getElem?_setAppend_of_ne {heap : List (Node α)} {i t : Nat}
    (hne : t ≠ i) (hi : i < heap.length) (nd' nd1 : Node α) :
    (heap.set t nd' ++ [nd1])[i]? = heap[i]? := by
  rw [List.getElem?_append_left (by simpa using hi), List.getElem?_set_ne hne]

theorem getElem?_setAppend_self {heap : List (Node α)} {t : Nat}
    (ht : t < heap.length) (nd' nd1 : Node α) :
    (heap.set t nd' ++ [nd1])[t]? = some nd' := by
  rw [List.getElem?_append_left (by simpa using ht)]
  exact List.getElem?_set_eq_of_lt _ ht

theorem getElem?_setAppend_last {heap : List (Node α)} {t : Nat} (nd' nd1 : Node α) :
    (heap.set t nd' ++ [nd1])[heap.length]? = some nd1 := by
  rw [← List.length_set heap t nd']
  exact List.getElem?_concat_length _ _

theorem set_concat_length (l : List β) (a b : β) :
    (l ++ [a]).set l.length b = l ++ [b] := by
  induction l with
  | nil => rfl
  | cons hd tl ih => simp [ih]

/-- Extending a chain that ends at `t` by linking `t.next` to a node
appended at the end of the heap. -/
theorem Chain.snoc {heap : List (Node α)} {a t : Nat} {l : List α}
    {tnd nd1 : Node α} {x : α}
    (h : Chain heap a l t) (ht : heap[t]? = some tnd)
    (hitem : nd1.item = some x) (hnext : nd1.next = none) :
    Chain (heap.set t { tnd with next := some heap.length } ++ [nd1]) a
      (l ++ [x]) heap.length := by
  induction h with
  | nil nd ha hn =>
    rename_i a
    have halt : a < heap.length := (List.getElem?_eq_some.mp ha).1
    have hnd : nd = tnd := by
      have := ha.symm.trans ht
      exact Option.some_injective _ this
    refine Chain.cons { tnd with next := some heap.length } nd1
      (getElem?_setAppend_self halt _ _) rfl halt
      (getElem?_setAppend_last _ _) hitem ?_
    exact Chain.nil nd1 (getElem?_setAppend_last _ _) hnext
  | cons nd ndb ha hn hab hb hit hc ih =>
    rename_i a b t' x' l'
    have halt : a < heap.length := (List.getElem?_eq_some.mp ha).1
    have hat : a ≠ t' := Nat.ne_of_lt (lt_of_lt_of_le hab hc.start_le)
    refine Chain.cons nd ?ndb ((getElem?_setAppend_of_ne (Ne.symm hat) halt _ _).trans ha)
      hn hab ?hb ?hitem (ih ht)
    case ndb => exact if b = t' then { tnd with next := some heap.length } else ndb
    case hb =>
      by_cases hbt : b = t'
      · subst hbt
        have hblt : b < heap.length := (List.getElem?_eq_some.mp hb).1
        simp only [if_pos rfl]
        exact getElem?_setAppend_self hblt _ _
      · have hblt : b < heap.length := (List.getElem?_eq_some.mp hb).1
        simp only [if_neg hbt]
        rw [getElem?_setAppend_of_ne (fun hh => hbt hh.symm) hblt, hb]
    case hitem =>
      by_cases hbt : b = t'
      · subst hbt
        have : ndb = tnd := Option.some_injective _ (hb.symm.trans ht)
        simp [if_pos rfl, ← this, hit]
      · simp [if_neg hbt, hit]

/-- The abstraction invariant tying a queue state to the list of its queued
items: the `next`-chain from `head` carries exactly the items and ends at
`tail`, and `tail.prev` points at a valid node that either already links
forward to `tail` or is `tail` itself with a still-null `next` (the freshly
constructed queue, whose sentinel `prev` is a self-reference). -/
structure Abs (s : QState α) (l : List α) : Prop where
  chain : Chain s.heap s.head l s.tail
  tail_prev : ∃ tnd p pnd, s.heap[s.tail]? = some tnd ∧ tnd.prev = some p ∧
      s.heap[p]? = some pnd ∧
      (pnd.next = some s.tail ∨ (p = s.tail ∧ pnd.next = none))

theorem abs_new (α : Type) : Abs (Ebr.new α) [] := by
  refine ⟨Chain.nil { Node.sentinel α with prev := some 0 } rfl rfl, ?_⟩
  exact ⟨_, 0, _, rfl, rfl, rfl, Or.inr ⟨rfl, rfl⟩⟩

/-- Canonical form of a sequential EBR enqueue from a state satisfying the
abstraction invariant: it succeeds, the resulting heap is the old heap with
the old tail's `next` linked to the fresh address and the fresh node
appended, `tail` moves to the fresh address, and the ghost `next`-store
trace is either the single final store or (when the helping store fired,
i.e. `tail.prev` was the self-referencing sentinel) the transient self-link
followed by the final store. -/
theorem enqueue_eq {s : QState α} {l : List α} (h : Abs s l) (x : α) :
    ∃ tnd w,
      s.heap[s.tail]? = some tnd ∧ tnd.next = none ∧
      Ebr.enqueue s x = some
        ({ s with
            heap := s.heap.set s.tail { tnd with next := some s.heap.length } ++
              [{ item := some x, prev := some s.tail, next := none }]
            tail := s.heap.length }, w) ∧
      (w = [(s.tail, some s.heap.length)] ∨
        (w = [(s.tail, some s.tail), (s.tail, some s.heap.length)] ∧
          tnd.prev = some s.tail)) := by
  obtain ⟨tnd, p, pnd, ht, hpv, hpn, hdisj⟩ := h.tail_prev
  have htl : s.tail < s.heap.length := h.chain.last_lt
  have hpl : p < s.heap.length := (List.getElem?_eq_some.mp hpn).1
  have htn : tnd.next = none := by
    obtain ⟨tnd2, ht2, htn2⟩ := h.chain.last_next
    rwa [Option.some_injective _ (ht2.symm.trans ht)] at htn2
  have e1 : (s.heap ++ [({ item := some x, prev := none, next := none } : Node α)])[s.tail]? =
      some tnd := by
    rw [List.getElem?_append_left htl]; exact ht
  have e2 : (s.heap ++ [({ item := some x, prev := none, next := none } : Node α)])[p]? =
      some pnd := by
    rw [List.getElem?_append_left hpl]; exact hpn
  have e3 : (s.heap ++ [({ item := some x, prev := none, next := none } : Node α)])[s.heap.length]? =
      some ({ item := some x, prev := none, next := none } : Node α) :=
    List.getElem?_concat_length _ _
  have e4 : (s.heap ++ [({ item := some x, prev := none, next := none } : Node α)]).set
      s.heap.length ({ item := some x, prev := some s.tail, next := none } : Node α) =
      s.heap ++ [({ item := some x, prev := some s.tail, next := none } : Node α)] :=
    set_concat_length _ _ _
  have e5 : (s.heap ++ [({ item := some x, prev := some s.tail, next := none } : Node α)])[p]? =
      some pnd := by
    rw [List.getElem?_append_left hpl]; exact hpn
  have e1' : (s.heap ++
      [({ item := some x, prev := some s.tail, next := none } : Node α)])[s.tail]? =
      some tnd := by
    rw [List.getElem?_append_left htl]; exact ht
  have e6 : ∀ nd' : Node α,
      (s.heap ++ [({ item := some x, prev := some s.tail, next := none } : Node α)]).set
        s.tail nd' =
      s.heap.set s.tail nd' ++
        [({ item := some x, prev := some s.tail, next := none } : Node α)] :=
    fun nd' => List.set_append_left _ _ htl
  rcases hdisj with hfwd | ⟨hpt, hnone⟩
  · -- tail.prev already links forward: the helping store does not fire
    refine ⟨tnd, [(s.tail, some s.heap.length)], ht, htn, ?_, Or.inl rfl⟩
    simp [Ebr.enqueue, updNode, Node.mkNode, e1, e2, e3, e4, e5, e1', hpv, hfwd, e6]
  · -- the fresh-queue case: tail.prev is tail itself, the helping store fires
    subst hpt
    have hpt2 : pnd = tnd := Option.some_injective _ (hpn.symm.trans ht)
    subst hpt2
    refine ⟨pnd, [(s.tail, some s.tail), (s.tail, some s.heap.length)], ht, htn, ?_,
      Or.inr ⟨rfl, hpv⟩⟩
    have e7 : ((s.heap ++ [({ item := some x, prev := some s.tail, next := none } : Node α)]).set
        s.tail { pnd with next := some s.tail })[s.tail]? =
        some { pnd with next := some s.tail } :=
      List.getElem?_set_eq_of_lt _ (by simpa using Nat.lt_succ_of_lt htl)
    have e8 : ∀ v : Node α,
        (s.heap.set s.tail v ++
          [({ item := some x, prev := some s.tail, next := none } : Node α)])[s.tail]? =
        some v :=
      fun v => getElem?_setAppend_self htl _ _
    have e9 : ∀ v v' : Node α,
        (s.heap.set s.tail v ++
          [({ item := some x, prev := some s.tail, next := none } : Node α)]).set s.tail v' =
        s.heap.set s.tail v' ++
          [({ item := some x, prev := some s.tail, next := none } : Node α)] := by
      intro v v'
      rw [List.set_append_left _ _ (by simpa using htl), List.set_set]
    simp [Ebr.enqueue, updNode, Node.mkNode, e1, e2, e3, e4, e5, e1', hpv, hnone, e7,
      List.set_set, e6, e8, e9]

/-- The state produced by a canonical enqueue satisfies the invariant for
the extended item list. -/
theorem abs_canon {s : QState α} {l : List α} (h : Abs s l) (x : α) {tnd : Node α}
    (ht : s.heap[s.tail]? = some tnd) :
    Abs ({ s with
        heap := s.heap.set s.tail { tnd with next := some s.heap.length } ++
          [{ item := some x, prev := some s.tail, next := none }]
        tail := s.heap.length }) (l ++ [x]) := by
  constructor
  · exact Chain.snoc h.chain ht rfl rfl
  · refine ⟨{ item := some x, prev := some s.tail, next := none }, s.tail,
      { tnd with next := some s.heap.length }, getElem?_setAppend_last _ _, rfl,
      getElem?_setAppend_self h.chain.last_lt _ _, Or.inl rfl⟩

theorem abs_enqueue {s : QState α} {l : List α} (h : Abs s l) (x : α) :
    ∃ s' w, Ebr.enqueue s x = some (s', w) ∧ Abs s' (l ++ [x]) ∧
      s'.head = s.head ∧ s'.tail = s.heap.length ∧
      s'.retired = s.retired ∧ s'.freed = s.freed := by
  obtain ⟨tnd, w, ht, htn, heq, hw⟩ := enqueue_eq h x
  exact ⟨_, w, heq, abs_canon h x ht, rfl, rfl, rfl, rfl⟩

/-- A sequential EBR dequeue from an empty queue (the `next` of the node at
`head` is null) returns `None` and leaves the state untouched. -/
theorem Chain.nil_inv {heap : List (Node α)} {a t : Nat} (h : Chain heap a [] t) :
    a = t ∧ ∃ nd, heap[a]? = some nd ∧ nd.next = none := by
  cases h with
  | nil nd ha hn => exact ⟨rfl, nd, ha, hn⟩

theorem Chain.cons_inv {heap : List (Node α)} {a t : Nat} {x : α} {l : List α}
    (h : Chain heap a (x :: l) t) :
    ∃ b nd ndb, heap[a]? = some nd ∧ nd.next = some b ∧ a < b ∧
      heap[b]? = some ndb ∧ ndb.item = some x ∧ Chain heap b l t := by
  cases h with
  | cons nd ndb ha hn hab hb hitem hc => exact ⟨_, nd, ndb, ha, hn, hab, hb, hitem, hc⟩

theorem dequeue_nil {s : QState α} (h : Abs s []) : Ebr.dequeue s = some (none, s) := by
  obtain ⟨-, nd, ha, hn⟩ := Chain.nil_inv h.chain
  simp [Ebr.dequeue, ha, hn]

/-- Canonical form of a sequential EBR dequeue from a non-empty queue: it
returns the first queued item, advances `head` to the old head's successor
(the node holding that item), retires exactly the old head, and changes
nothing else; the invariant holds for the remaining items. -/
theorem dequeue_eq {s : QState α} {x : α} {l : List α} (h : Abs s (x :: l)) :
    ∃ b nd ndb,
      s.heap[s.head]? = some nd ∧ nd.next = some b ∧
      s.heap[b]? = some ndb ∧ ndb.item = some x ∧
      Ebr.dequeue s = some (some x, { s with head := b, retired := s.retired ++ [s.head] }) ∧
      Abs { s with head := b, retired := s.retired ++ [s.head] } l := by
  obtain ⟨b, nd, ndb, ha, hn, hab, hb, hitem, hc⟩ := Chain.cons_inv h.chain
  refine ⟨b, nd, ndb, ha, hn, hb, hitem, ?_, hc, ?_⟩
  · simp [Ebr.dequeue, ha, hn, hb, hitem]
  · exact h.tail_prev

theorem runDeqs_eq : ∀ {l : List α} {s : QState α}, Abs s l →
    ∃ s', Ebr.runDeqs s (l.length + 1) = some (l.map some ++ [none], s') ∧ Abs s' []
  | [], s, h => ⟨s, by simp [Ebr.runDeqs, dequeue_nil h], h⟩
  | x :: l, s, h => by
    obtain ⟨b, nd, ndb, _, _, _, _, hdq, habs⟩ := dequeue_eq h
    obtain ⟨s', hs', habs'⟩ := runDeqs_eq habs
    refine ⟨s', ?_, habs'⟩
    have hstep : Ebr.runDeqs s ((x :: l).length + 1) =
        (Ebr.dequeue s).bind fun p =>
          (Ebr.runDeqs p.2 (l.length + 1)).bind fun q => some (p.1 :: q.1, q.2) := rfl
    rw [hstep, hdq]
    simp [hs']

theorem runEnqs_eq : ∀ (xs : List α) {s : QState α} {l : List α}, Abs s l →
    ∃ s', Ebr.runEnqs s xs = some s' ∧ Abs s' (l ++ xs)
  | [], s, l, h => ⟨s, rfl, by simpa using h⟩
  | x :: xs, s, l, h => by
    obtain ⟨s1, w, henq, habs1, _, _, _, _⟩ := abs_enqueue h x
    obtain ⟨s', hrun, habs'⟩ := runEnqs_eq xs habs1
    refine ⟨s', ?_, by simpa using habs'⟩
    have hstep : Ebr.runEnqs s (x :: xs) =
        (Ebr.enqueueSt s x).bind fun s1 => Ebr.runEnqs s1 xs := rfl
    rw [hstep]
    simp [Ebr.enqueueSt, henq, hrun]

/-- Canonical form of a sequential HP enqueue: same state transition as the
EBR enqueue, and both hazard slots are reset in the returned holder. -/
theorem hp_enqueue_eq {s : QState α} {l : List α} (h : Abs s l) (x : α) (hd : Hp.Holder) :
    ∃ tnd,
      s.heap[s.tail]? = some tnd ∧
      Hp.enqueue s x hd = some
        ({ s with
            heap := s.heap.set s.tail { tnd with next := some s.heap.length } ++
              [{ item := some x, prev := some s.tail, next := none }]
            tail := s.heap.length }, Hp.Holder.mk none none) := by
  obtain ⟨tnd, p, pnd, ht, hpv, hpn, hdisj⟩ := h.tail_prev
  have htl : s.tail < s.heap.length := h.chain.last_lt
  have hpl : p < s.heap.length := (List.getElem?_eq_some.mp hpn).1
  have e1 : (s.heap ++ [({ item := some x, prev := none, next := none } : Node α)])[s.tail]? =
      some tnd := by
    rw [List.getElem?_append_left htl]; exact ht
  have e2 : (s.heap ++ [({ item := some x, prev := none, next := none } : Node α)])[p]? =
      some pnd := by
    rw [List.getElem?_append_left hpl]; exact hpn
  have e3 : (s.heap ++ [({ item := some x, prev := none, next := none } : Node α)])[s.heap.length]? =
      some ({ item := some x, prev := none, next := none } : Node α) :=
    List.getElem?_concat_length _ _
  have e4 : (s.heap ++ [({ item := some x, prev := none, next := none } : Node α)]).set
      s.heap.length ({ item := some x, prev := some s.tail, next := none } : Node α) =
      s.heap ++ [({ item := some x, prev := some s.tail, next := none } : Node α)] :=
    set_concat_length _ _ _
  have e5 : (s.heap ++ [({ item := some x, prev := some s.tail, next := none } : Node α)])[p]? =
      some pnd := by
    rw [List.getElem?_append_left hpl]; exact hpn
  have e1' : (s.heap ++
      [({ item := some x, prev := some s.tail, next := none } : Node α)])[s.tail]? =
      some tnd := by
    rw [List.getElem?_append_left htl]; exact ht
  have e6 : ∀ nd' : Node α,
      (s.heap ++ [({ item := some x, prev := some s.tail, next := none } : Node α)]).set
        s.tail nd' =
      s.heap.set s.tail nd' ++
        [({ item := some x, prev := some s.tail, next := none } : Node α)] :=
    fun nd' => List.set_append_left _ _ htl
  rcases hdisj with hfwd | ⟨hpt, hnone⟩
  · refine ⟨tnd, ht, ?_⟩
    simp [Hp.enqueue, updNode, Node.mkNode, e1, e2, e3, e4, e5, e1', hpv, hfwd, e6]
  · subst hpt
    have hpt2 : pnd = tnd := Option.some_injective _ (hpn.symm.trans ht)
    subst hpt2
    refine ⟨pnd, ht, ?_⟩
    have e7 : ((s.heap ++ [({ item := some x, prev := some s.tail, next := none } : Node α)]).set
        s.tail { pnd with next := some s.tail })[s.tail]? =
        some { pnd with next := some s.tail } :=
      List.getElem?_set_eq_of_lt _ (by simpa using Nat.lt_succ_of_lt htl)
    have e8 : ∀ v : Node α,
        (s.heap.set s.tail v ++
          [({ item := some x, prev := some s.tail, next := none } : Node α)])[s.tail]? =
        some v :=
      fun v => getElem?_setAppend_self htl _ _
    have e9 : ∀ v v' : Node α,
        (s.heap.set s.tail v ++
          [({ item := some x, prev := some s.tail, next := none } : Node α)]).set s.tail v' =
        s.heap.set s.tail v' ++
          [({ item := some x, prev := some s.tail, next := none } : Node α)] := by
      intro v v'
      rw [List.set_append_left _ _ (by simpa using htl), List.set_set]
    simp [Hp.enqueue, updNode, Node.mkNode, e1, e2, e3, e4, e5, e1', hpv, hnone, e7,
      List.set_set, e6, e8, e9]

/-- A sequential HP dequeue from an empty queue returns `None`, leaves the
state untouched, resets the primary hazard slot and leaves the secondary
slot as it was. -/
theorem hp_dequeue_nil {s : QState α} (h : Abs s []) (hd : Hp.Holder) :
    Hp.dequeue s hd = some (none, s, Hp.Holder.mk none hd.sub) := by
  obtain ⟨-, nd, ha, hn⟩ := Chain.nil_inv h.chain
  simp [Hp.dequeue, ha, hn]

/-- Canonical form of a sequential HP dequeue from a non-empty queue: the
same state transition as the EBR dequeue; the returned holder has the
primary slot reset while the secondary slot still protects the new head
(the node holding the returned item). -/
theorem hp_dequeue_eq {s : QState α} {x : α} {l : List α} (h : Abs s (x :: l))
    (hd : Hp.Holder) :
    ∃ b nd ndb,
      s.heap[s.head]? = some nd ∧ nd.next = some b ∧
      s.heap[b]? = some ndb ∧ ndb.item = some x ∧
      Hp.dequeue s hd = some (some x,
        { s with head := b, retired := s.retired ++ [s.head] },
        Hp.Holder.mk none (some b)) ∧
      Abs { s with head := b, retired := s.retired ++ [s.head] } l := by
  obtain ⟨b, nd, ndb, ha, hn, hab, hb, hitem, hc⟩ := Chain.cons_inv h.chain
  refine ⟨b, nd, ndb, ha, hn, hb, hitem, ?_, hc, ?_⟩
  · simp [Hp.dequeue, ha, hn, hb, hitem]
  · exact h.tail_prev

theorem hp_runDeqs_eq : ∀ {l : List α} {s : QState α}, Abs s l → ∀ hd : Hp.Holder,
    ∃ s' hd', Hp.runDeqs s hd (l.length + 1) = some (l.map some ++ [none], s', hd') ∧ Abs s' []
  | [], s, h, hd =>
    ⟨s, Hp.Holder.mk none hd.sub, by simp [Hp.runDeqs, hp_dequeue_nil h hd], h⟩
  | x :: l, s, h, hd => by
    obtain ⟨b, nd, ndb, _, _, _, _, hdq, habs⟩ := hp_dequeue_eq h hd
    obtain ⟨s', hd', hs', habs'⟩ := hp_runDeqs_eq habs (Hp.Holder.mk none (some b))
    refine ⟨s', hd', ?_, habs'⟩
    have hstep : Hp.runDeqs s hd ((x :: l).length + 1) =
        (Hp.dequeue s hd).bind fun p =>
          (Hp.runDeqs p.2.1 p.2.2 (l.length + 1)).bind fun q =>
            some (p.1 :: q.1, q.2.1, q.2.2) := rfl
    rw [hstep, hdq]
    simp [hs']

theorem hp_runEnqs_eq : ∀ (xs : List α) {s : QState α} {l : List α}, Abs s l →
    ∀ hd : Hp.Holder,
    ∃ s' hd', Hp.runEnqs s hd xs = some (s', hd') ∧ Abs s' (l ++ xs)
  | [], s, l, h, hd => ⟨s, hd, rfl, by simpa using h⟩
  | x :: xs, s, l, h, hd => by
    obtain ⟨tnd, ht, henq⟩ := hp_enqueue_eq h x hd
    have habs1 := abs_canon h x ht
    obtain ⟨s', hd', hrun, habs'⟩ := hp_runEnqs_eq xs habs1 (Hp.Holder.mk none none)
    refine ⟨s', hd', ?_, by simpa using habs'⟩
    have hstep : Hp.runEnqs s hd (x :: xs) =
        (Hp.enqueue s x hd).bind fun p => Hp.runEnqs p.1 p.2 xs := rfl
    rw [hstep, henq]
    simp [hrun]

/-- The addresses reached from `a` by following `next` links for at most
`fuel` steps (the node at `a` itself excluded). -/
def chainAddrs (heap : List (Node α)) : Nat → Nat → List Nat
  | 0, _ => []
  | fuel + 1, a =>
    match heap[a]? with
    | none => []
    | some nd =>
      match nd.next with
      | none => []
      | some b => b :: chainAddrs heap fuel b

/-- Every node reachable from the start of a chain by following `next`
links holds a payload. -/
theorem chain_mem_item {heap : List (Node α)} {l : List α} {a t : Nat}
    (hch : Chain heap a l t) :
    ∀ {fuel b : Nat}, b ∈ chainAddrs heap fuel a →
      ∃ nd y, heap[b]? = some nd ∧ nd.item = some y := by
  induction hch with
  | nil nd ha hn =>
    intro fuel b hb
    cases fuel with
    | zero => simp [chainAddrs] at hb
    | succ fuel => simp [chainAddrs, ha, hn] at hb
  | cons nd ndb ha hn hab hb0 hitem hc ih =>
    intro fuel b hb
    cases fuel with
    | zero => simp [chainAddrs] at hb
    | succ fuel =>
      simp only [chainAddrs, ha, hn, List.mem_cons] at hb
      rcases hb with rfl | hb
      · exact ⟨ndb, _, hb0, hitem⟩
      · exact ih hb

theorem abs_new_hp (α : Type) : Abs (Hp.new α) [] := abs_new α

/-- The queue state holding the single item `42`, as produced by enqueueing
`42` into a freshly constructed queue (either variant); used to instantiate
the invariant-based theorems at a concrete input. -/
def oneState : QState Nat :=
  { heap := [{ item := none, prev := some 0, next := some 1 },
             { item := some 42, prev := some 0, next := none }]
    head := 0
    tail := 1
    retired := []
    freed := [] }

theorem abs_oneState : Abs oneState [42] := by
  constructor
  · refine Chain.cons { item := none, prev := some 0, next := some 1 }
      { item := some 42, prev := some 0, next := none } rfl rfl (by decide) rfl rfl ?_
    exact Chain.nil { item := some 42, prev := some 0, next := none } rfl rfl
  · exact ⟨{ item := some 42, prev := some 0, next := none }, 0,
      { item := none, prev := some 0, next := some 1 }, rfl, rfl, rfl, Or.inl rfl⟩

/-- C1: Sequential FIFO correctness: in a single-threaded execution on a
freshly constructed queue, in both the EBR and the HP variant, enqueueing
any sequence `xs` and then dequeueing `|xs| + 1` times yields exactly the
items of `xs` in order followed by an empty-queue `none`; in particular
enqueue(1), enqueue(2), enqueue(3) then four dequeues yield 1, 2, 3, none. -/
theorem fifo_order (α : Type) (xs : List α) :
    ((Ebr.runEnqs (Ebr.new α) xs).bind fun s =>
      (Ebr.runDeqs s (xs.length + 1)).map Prod.fst) = some (xs.map some ++ [none]) ∧
    ((Hp.runEnqs (Hp.new α) Hp.Holder.new xs).bind fun p =>
      (Hp.runDeqs p.1 p.2 (xs.length + 1)).map Prod.fst) = some (xs.map some ++ [none]) ∧
    ((Ebr.runEnqs (Ebr.new Nat) [1, 2, 3]).bind fun s =>
      (Ebr.runDeqs s 4).map Prod.fst) = some [some 1, some 2, some 3, none] ∧
    ((Hp.runEnqs (Hp.new Nat) Hp.Holder.new [1, 2, 3]).bind fun p =>
      (Hp.runDeqs p.1 p.2 4).map Prod.fst) = some [some 1, some 2, some 3, none] := by
  refine ⟨?_, ?_, by decide, by decide⟩
  · obtain ⟨s, hrun, habs⟩ := runEnqs_eq xs (abs_new α)
    simp only [List.nil_append] at habs
    obtain ⟨s', hs', -⟩ := runDeqs_eq habs
    simp [hrun, hs']
  · obtain ⟨s, hd, hrun, habs⟩ := hp_runEnqs_eq xs (abs_new_hp α) Hp.Holder.new
    simp only [List.nil_append] at habs
    obtain ⟨s', hd', hs', -⟩ := hp_runDeqs_eq habs hd
    simp [hrun, hs']

/-- C2 counterexample: during the first enqueue into a freshly constructed
EBR queue, the sentinel's `next` field is stored twice with different
values: the helping step (seeing the self-referencing sentinel as both
`ltail` and `lprev`) first stores a self-link `some 0`, and the
post-CAS store then overwrites it with the new node `some 1` — so not
every writer to that `next` field stores an identical value, and the field
is reset after being set. -/
theorem sentinel_next_overwritten :
    (Ebr.enqueue (Ebr.new Nat) 7).map Prod.snd = some [(0, some 0), (0, some 1)] ∧
    ¬ writesConsistent [(0, some 0), (0, some 1)] :=
  ⟨by decide, by decide⟩

/-- C2 amended: in every sequential EBR enqueue from a reachable state, the
old tail's `next` is null at the start of the enqueue, and the enqueue
performs either exactly one `next` store (linking the old tail to the new
node) or — precisely when `tail.prev` is the self-referencing sentinel of a
never-enqueued queue — two stores to the sentinel's `next`: a transient
self-link by the helping step, then the final link to the new node, which
overwrites it. -/
theorem next_store_single {α : Type} {s : QState α} {l : List α} (h : Abs s l) (x : α) :
    ∃ tnd w, s.heap[s.tail]? = some tnd ∧ tnd.next = none ∧
      (Ebr.enqueue s x).map Prod.snd = some w ∧
      (w = [(s.tail, some s.heap.length)] ∨
        (w = [(s.tail, some s.tail), (s.tail, some s.heap.length)] ∧
          tnd.prev = some s.tail)) := by
  obtain ⟨tnd, w, ht, htn, heq, hw⟩ := enqueue_eq h x
  exact ⟨tnd, w, ht, htn, by rw [heq]; rfl, hw⟩

theorem next_store_single_witness :
    ∃ tnd w, (Ebr.new Nat).heap[(Ebr.new Nat).tail]? = some tnd ∧ tnd.next = none ∧
      (Ebr.enqueue (Ebr.new Nat) 7).map Prod.snd = some w ∧
      (w = [((Ebr.new Nat).tail, some (Ebr.new Nat).heap.length)] ∨
        (w = [((Ebr.new Nat).tail, some (Ebr.new Nat).tail),
              ((Ebr.new Nat).tail, some (Ebr.new Nat).heap.length)] ∧
          tnd.prev = some (Ebr.new Nat).tail)) :=
  next_store_single (abs_new Nat) 7

/-- C3: the claim says both destructors drain the queue and free the final
sentinel; the EBR destructor does (on a queue holding 1, 2, 3 it retires
the three successive head nodes 0, 1, 2 and frees the final node 3), but
the HP destructor has an empty body: it is the identity on the state,
retiring and freeing nothing on the same non-empty queue. -/
theorem hp_drop_reclaims_nothing :
    (∀ (s : QState Nat), Hp.drop s = s) ∧
    ((Hp.runEnqs (Hp.new Nat) Hp.Holder.new [1, 2, 3]).map fun p =>
      ((Hp.drop p.1).retired, (Hp.drop p.1).freed, (Hp.drop p.1).heap.length)) =
      some ([], [], 4) ∧
    ((Ebr.runEnqs (Ebr.new Nat) [1, 2, 3]).bind Ebr.drop).map
      (fun s => (s.retired, s.freed)) = some ([0, 1, 2], [3]) :=
  ⟨fun _ => rfl, by decide, by decide⟩

/-- C6: both constructors allocate a single sentinel node holding no
payload whose `prev` is a self-reference (its own address 0), and point
`head` and `tail` at it; nothing is retired or freed. -/
theorem construct_state (α : Type) :
    Ebr.new α = { heap := [{ item := none, prev := some 0, next := none }]
                  head := 0, tail := 0, retired := [], freed := [] } ∧
    Hp.new α = Ebr.new α :=
  ⟨rfl, rfl⟩

/-- C4 counterexample: after a successful dequeue in the HP variant the
secondary hazard slot is not reset: dequeueing the single item of a queue
that held one item leaves the holder with `sub` still protecting address 1
(the new head), not `none` as the claim requires on that exit path. -/
theorem hp_dequeue_sub_not_reset :
    ((Hp.enqueue (Hp.new Nat) 1 Hp.Holder.new).bind fun p =>
      Hp.dequeue p.1 p.2).map (fun r => (r.2.2.pri, r.2.2.sub)) =
      some (none, some 1) ∧
    (some 1 : Option Nat) ≠ none :=
  ⟨by decide, by decide⟩

/-- C4 amended: in the HP variant, `enqueue` resets both hazard slots after
its successful CAS; `dequeue` resets only the primary slot — on the early
empty-queue return the secondary slot keeps whatever it held before, and
after a successful CAS the secondary slot is left protecting the new head,
the node holding the returned item. -/
theorem hazard_slot_reset {α : Type} {s : QState α} {l : List α} (h : Abs s l) :
    (∀ (x : α) (hd : Hp.Holder),
      (Hp.enqueue s x hd).map Prod.snd = some (Hp.Holder.mk none none)) ∧
    (l = [] → ∀ hd : Hp.Holder,
      (Hp.dequeue s hd).map (fun r => r.2.2) = some (Hp.Holder.mk none hd.sub)) ∧
    (∀ (x : α) (l' : List α), l = x :: l' → ∀ hd : Hp.Holder,
      ∃ b, (Hp.dequeue s hd).map (fun r => (r.1, r.2.1.head, r.2.2)) =
        some (some x, b, Hp.Holder.mk none (some b))) := by
  refine ⟨?_, ?_, ?_⟩
  · intro x hd
    obtain ⟨tnd, ht, heq⟩ := hp_enqueue_eq h x hd
    rw [heq]; rfl
  · rintro rfl hd
    rw [hp_dequeue_nil h hd]; rfl
  · rintro x l' rfl hd
    obtain ⟨b, nd, ndb, ha, hn, hb, hitem, heq, -⟩ := hp_dequeue_eq h hd
    exact ⟨b, by rw [heq]; rfl⟩

theorem hazard_slot_reset_witness :
    (∀ (x : Nat) (hd : Hp.Holder),
      (Hp.enqueue oneState x hd).map Prod.snd = some (Hp.Holder.mk none none)) ∧
    ([42] = ([] : List Nat) → ∀ hd : Hp.Holder,
      (Hp.dequeue oneState hd).map (fun r => r.2.2) = some (Hp.Holder.mk none hd.sub)) ∧
    (∀ (x : Nat) (l' : List Nat), [42] = x :: l' → ∀ hd : Hp.Holder,
      ∃ b, (Hp.dequeue oneState hd).map (fun r => (r.1, r.2.1.head, r.2.2)) =
        some (some x, b, Hp.Holder.mk none (some b))) :=
  hazard_slot_reset abs_oneState

/-- C5: dequeue returns `none` exactly when the `next` link of the node at
`head` is null, and in that case the whole state — in particular `head` and
`tail` — is unchanged (the HP variant additionally clears its primary
hazard slot); in particular dequeue on a freshly constructed queue of
either variant returns `none`. -/
theorem dequeue_none_iff_empty {α : Type} {s : QState α} {l : List α} (h : Abs s l) :
    ((Ebr.dequeue s).map Prod.fst = some none ↔
      (s.heap[s.head]?).map Node.next = some none) ∧
    ((s.heap[s.head]?).map Node.next = some none →
      Ebr.dequeue s = some (none, s) ∧
      ∀ hd : Hp.Holder, Hp.dequeue s hd = some (none, s, Hp.Holder.mk none hd.sub)) ∧
    (∀ hd : Hp.Holder, ((Hp.dequeue s hd).map Prod.fst = some none ↔
      (s.heap[s.head]?).map Node.next = some none)) ∧
    Ebr.dequeue (Ebr.new α) = some (none, Ebr.new α) ∧
    (∀ hd : Hp.Holder, Hp.dequeue (Hp.new α) hd =
      some (none, Hp.new α, Hp.Holder.mk none hd.sub)) := by
  have hfresh1 : Ebr.dequeue (Ebr.new α) = some (none, Ebr.new α) :=
    dequeue_nil (abs_new α)
  have hfresh2 : ∀ hd : Hp.Holder, Hp.dequeue (Hp.new α) hd =
      some (none, Hp.new α, Hp.Holder.mk none hd.sub) :=
    fun hd => hp_dequeue_nil (abs_new_hp α) hd
  cases l with
  | nil =>
    obtain ⟨hat, nd, ha, hn⟩ := Chain.nil_inv h.chain
    refine ⟨?_, ?_, ?_, hfresh1, hfresh2⟩
    · rw [dequeue_nil h]; simp [ha, hn]
    · intro _
      exact ⟨dequeue_nil h, fun hd => hp_dequeue_nil h hd⟩
    · intro hd
      rw [hp_dequeue_nil h hd]; simp [ha, hn]
  | cons x l =>
    obtain ⟨b, nd, ndb, ha, hn, hab, hb, hitem, hc⟩ := Chain.cons_inv h.chain
    obtain ⟨b', nd', ndb', ha', hn', hb', hitem', heq, -⟩ := dequeue_eq h
    refine ⟨?_, ?_, ?_, hfresh1, hfresh2⟩
    · rw [heq]; simp [ha, hn]
    · intro hcontra
      rw [ha] at hcontra
      simp [hn] at hcontra
    · intro hd
      obtain ⟨b2, nd2, ndb2, ha2, hn2, hb2, hitem2, heq2, -⟩ := hp_dequeue_eq h hd
      rw [heq2]; simp [ha, hn]

theorem dequeue_none_iff_empty_witness :
    (((Ebr.dequeue (Ebr.new Nat)).map Prod.fst = some none ↔
      ((Ebr.new Nat).heap[(Ebr.new Nat).head]?).map Node.next = some none) ∧
    (((Ebr.new Nat).heap[(Ebr.new Nat).head]?).map Node.next = some none →
      Ebr.dequeue (Ebr.new Nat) = some (none, Ebr.new Nat) ∧
      ∀ hd : Hp.Holder, Hp.dequeue (Ebr.new Nat) hd =
        some (none, Ebr.new Nat, Hp.Holder.mk none hd.sub)) ∧
    (∀ hd : Hp.Holder, ((Hp.dequeue (Ebr.new Nat) hd).map Prod.fst = some none ↔
      ((Ebr.new Nat).heap[(Ebr.new Nat).head]?).map Node.next = some none)) ∧
    Ebr.dequeue (Ebr.new Nat) = some (none, Ebr.new Nat) ∧
    (∀ hd : Hp.Holder, Hp.dequeue (Hp.new Nat) hd =
      some (none, Hp.new Nat, Hp.Holder.mk none hd.sub))) :=
  dequeue_none_iff_empty (abs_new Nat)

/-- C7: `head` and `tail` advance only along the chain: a successful
dequeue CAS moves `head` exactly to the old head's `next` — a node
reachable through the existing chain — leaving `tail` and the heap alone,
and an enqueue CAS moves `tail` exactly to the freshly allocated node,
whose `prev` is the old tail and to which the old tail's `next` is then
linked. -/
theorem head_tail_monotonic {α : Type} {s : QState α} {l : List α} (h : Abs s l) :
    (∀ (y : α) (s' : QState α), Ebr.dequeue s = some (some y, s') →
      (s.heap[s.head]?).map Node.next = some (some s'.head) ∧
      s'.head ∈ chainAddrs s.heap s.heap.length s.head ∧
      s'.tail = s.tail ∧ s'.heap = s.heap) ∧
    (∀ (x : α) (s' : QState α) (w : List (Nat × Option Nat)),
      Ebr.enqueue s x = some (s', w) →
      s'.tail = s.heap.length ∧ s'.head = s.head ∧
      (s'.heap[s'.tail]?).map Node.prev = some (some s.tail) ∧
      (s'.heap[s.tail]?).map Node.next = some (some s'.tail)) := by
  constructor
  · intro y s' hdq
    cases l with
    | nil =>
      rw [dequeue_nil h] at hdq
      simp at hdq
    | cons z l =>
      obtain ⟨b, nd, ndb, ha, hn, hb, hitem, heq, -⟩ := dequeue_eq h
      rw [heq] at hdq
      simp only [Option.some.injEq, Prod.mk.injEq] at hdq
      obtain ⟨-, hs⟩ := hdq
      subst hs
      refine ⟨by simp [ha, hn], ?_, rfl, rfl⟩
      have hpos := h.chain.start_lt
      cases hL : s.heap.length with
      | zero => rw [hL] at hpos; exact absurd hpos (Nat.not_lt_zero _)
      | succ m => simp [chainAddrs, ha, hn]
  · intro x s' w' henq
    obtain ⟨tnd, w, ht, htn, heq, hw⟩ := enqueue_eq h x
    rw [heq] at henq
    simp only [Option.some.injEq, Prod.mk.injEq] at henq
    obtain ⟨hs, -⟩ := henq
    subst hs
    refine ⟨rfl, rfl, ?_, ?_⟩
    · rw [getElem?_setAppend_last]; rfl
    · rw [getElem?_setAppend_self h.chain.last_lt]; rfl

theorem head_tail_monotonic_witness :
    ((∀ (y : Nat) (s' : QState Nat), Ebr.dequeue oneState = some (some y, s') →
      (oneState.heap[oneState.head]?).map Node.next = some (some s'.head) ∧
      s'.head ∈ chainAddrs oneState.heap oneState.heap.length oneState.head ∧
      s'.tail = oneState.tail ∧ s'.heap = oneState.heap) ∧
    (∀ (x : Nat) (s' : QState Nat) (w : List (Nat × Option Nat)),
      Ebr.enqueue oneState x = some (s', w) →
      s'.tail = oneState.heap.length ∧ s'.head = oneState.head ∧
      (s'.heap[s'.tail]?).map Node.prev = some (some oneState.tail) ∧
      (s'.heap[oneState.tail]?).map Node.next = some (some s'.tail))) :=
  head_tail_monotonic abs_oneState

/-- C9: from any state satisfying the invariant, a dequeue call of either
variant never fails internally — in particular the `unwrap` of the new
head's payload never panics: the node read as the new head always holds a
payload, and indeed every node reachable from `head` through `next` links
(every linked node other than the current head) holds a payload. -/
theorem dequeue_unwrap_safe {α : Type} {s : QState α} {l : List α} (h : Abs s l) :
    (∃ r, Ebr.dequeue s = some r) ∧
    (∀ hd : Hp.Holder, ∃ r, Hp.dequeue s hd = some r) ∧
    (∀ b : Nat, (s.heap[s.head]?).map Node.next = some (some b) →
      ∃ nd y, s.heap[b]? = some nd ∧ nd.item = some y) ∧
    (∀ b ∈ chainAddrs s.heap s.heap.length s.head,
      ∃ nd y, s.heap[b]? = some nd ∧ nd.item = some y) := by
  refine ⟨?_, ?_, ?_, fun b hb => chain_mem_item h.chain hb⟩
  · cases l with
    | nil => exact ⟨_, dequeue_nil h⟩
    | cons x l =>
      obtain ⟨b, _, _, _, _, _, _, heq, -⟩ := dequeue_eq h
      exact ⟨_, heq⟩
  · intro hd
    cases l with
    | nil => exact ⟨_, hp_dequeue_nil h hd⟩
    | cons x l =>
      obtain ⟨b, _, _, _, _, _, _, heq, -⟩ := hp_dequeue_eq h hd
      exact ⟨_, heq⟩
  · intro b hb
    cases l with
    | nil =>
      obtain ⟨-, nd, ha, hn⟩ := Chain.nil_inv h.chain
      rw [ha] at hb
      simp [hn] at hb
    | cons x l =>
      obtain ⟨b', nd, ndb, ha, hn, hab, hbl, hitem, hc⟩ := Chain.cons_inv h.chain
      rw [ha] at hb
      simp only [Option.map_some', Option.some.injEq, hn] at hb
      obtain rfl : b' = b := hb
      exact ⟨ndb, x, hbl, hitem⟩

theorem dequeue_unwrap_safe_witness :
    ((∃ r, Ebr.dequeue oneState = some r) ∧
    (∀ hd : Hp.Holder, ∃ r, Hp.dequeue oneState hd = some r) ∧
    (∀ b : Nat, (oneState.heap[oneState.head]?).map Node.next = some (some b) →
      ∃ nd y, oneState.heap[b]? = some nd ∧ nd.item = some y) ∧
    (∀ b ∈ chainAddrs oneState.heap oneState.heap.length oneState.head,
      ∃ nd y, oneState.heap[b]? = some nd ∧ nd.item = some y)) :=
  dequeue_unwrap_safe abs_oneState

/-- C10: a successful dequeue retires exactly the former head node and
nothing else; the heap itself is unchanged, the node holding the returned
payload becomes the new head and its `item` field still stores the returned
value (the payload is returned by reference, never moved out of the node);
the HP variant performs the same state transition. -/
theorem dequeue_returns_by_reference {α : Type} {s : QState α} {x : α} {l : List α}
    (h : Abs s (x :: l)) :
    ∃ b nd,
      Ebr.dequeue s = some (some x,
        { s with head := b, retired := s.retired ++ [s.head] }) ∧
      (∀ hd : Hp.Holder, Hp.dequeue s hd = some (some x,
        { s with head := b, retired := s.retired ++ [s.head] },
        Hp.Holder.mk none (some b))) ∧
      s.heap[b]? = some nd ∧ nd.item = some x ∧
      (s.heap[s.head]?).map Node.next = some (some b) := by
  obtain ⟨b, nd0, ndb, ha, hn, hb, hitem, heq, -⟩ := dequeue_eq h
  refine ⟨b, ndb, heq, ?_, hb, hitem, by simp [ha, hn]⟩
  intro hd
  obtain ⟨b2, nd2, ndb2, ha2, hn2, hb2, hitem2, heq2, -⟩ := hp_dequeue_eq h hd
  have hnd : nd2 = nd0 := Option.some_injective _ (ha2.symm.trans ha)
  subst hnd
  rw [hn] at hn2
  obtain rfl : b = b2 := Option.some_inj.mp hn2
  exact heq2

theorem dequeue_returns_by_reference_witness :
    ∃ b nd,
      Ebr.dequeue oneState = some (some 42,
        { oneState with head := b, retired := oneState.retired ++ [oneState.head] }) ∧
      (∀ hd : Hp.Holder, Hp.dequeue oneState hd = some (some 42,
        { oneState with head := b, retired := oneState.retired ++ [oneState.head] },
        Hp.Holder.mk none (some b))) ∧
      oneState.heap[b]? = some nd ∧ nd.item = some 42 ∧
      (oneState.heap[oneState.head]?).map Node.next = some (some b) :=
  dequeue_returns_by_reference abs_oneState

end DoubleLink

